import Mathlib

/-!
Shallow embedding of src/instapaper_to_remarkable.py.

Strings are modelled as lists of characters where character level regular
expression work matters, and as Lean String values elsewhere.  Python's
regular expression classes for whitespace and word characters are modelled
by their ASCII cores, which is the alphabet the program's titles and markup
are specified over.
-/

namespace InstapaperSync

/-- Characters deleted by the first regex of sanitize_filename (line 180). -/
def forbiddenChar (c : Char) : Bool :=
  c == '<' || c == '>' || c == ':' || c == '"' || c == '/' ||
  c == '\\' || c == '|' || c == '?' || c == '*'

/-- ASCII core of the whitespace class collapsed by the second regex of
sanitize_filename (line 181) and stripped by str.strip. -/
def pySpace (c : Char) : Bool :=
  c == ' ' || ('\t' ≤ c && c ≤ '\r')

/-- State machine replacing every maximal whitespace run by a single space:
the flag records whether the scanner is inside a whitespace run. -/
def collapseWsAux : Bool → List Char → List Char
  | _, [] => []
  | inRun, c :: rest =>
    if pySpace c then
      if inRun then collapseWsAux true rest else ' ' :: collapseWsAux true rest
    else c :: collapseWsAux false rest

/-- The whitespace run collapsing substitution of line 181. -/
def collapseWs (l : List Char) : List Char := collapseWsAux false l

/-- Python str.strip: drop leading and trailing whitespace (line 181). -/
def pyStrip (l : List Char) : List Char :=
  (((l.dropWhile pySpace).reverse).dropWhile pySpace).reverse

/-- sanitize_filename (lines 179-182): delete the reserved characters,
collapse whitespace runs, strip, then keep at most 120 characters, with the
fixed fallback name when the stripped result is empty. -/
def sanitize_filename (title : List Char) : List Char :=
  let name1 := title.filter (fun c => !forbiddenChar c)
  let name2 := pyStrip (collapseWs name1)
  if name2 = [] then ("untitled").toList else name2.take 120

/-- Adjacent characters of a collapsed name are never both whitespace. -/
def noWsPair (a b : Char) : Prop := pySpace a = false ∨ pySpace b = false

/-- Python word characters (ASCII core), for the word boundary of the
pattern on line 203. -/
def wordChar (c : Char) : Bool := c == '_' || c.isAlphanum

/-- Zero width word boundary after the final letter of a matched tag name:
the match succeeds when the next character is not a word character or the
input ends there. -/
def boundaryAt : List Char → Bool
  | [] => true
  | c :: _ => !wordChar c

/-- Literal pattern test: does the second list start with the first. -/
def startsWithChars : List Char → List Char → Bool
  | [], _ => true
  | _ :: _, [] => false
  | p :: ps, c :: cs => p == c && startsWithChars ps cs

def graphicOpen : List Char := ['<', 'g', 'r', 'a', 'p', 'h', 'i', 'c']

def graphicClose : List Char := ['<', '/', 'g', 'r', 'a', 'p', 'h', 'i', 'c', '>']

def imgOpen : List Char := ['<', 'i', 'm', 'g']

/-- Fueled scanner for the substitution on line 203: at each position, on a
match of the opening graphic tag name followed by a word boundary the tag
name is replaced by the img tag name and scanning resumes after it;
otherwise one character is copied.  The fuel only bounds the recursion
depth, and subOpen supplies enough of it. -/
def subOpenF : Nat → List Char → List Char
  | 0, s => s
  | _ + 1, [] => []
  | fuel + 1, c :: rest =>
    if startsWithChars graphicOpen (c :: rest) && boundaryAt (List.drop 8 (c :: rest)) then
      imgOpen ++ subOpenF fuel (List.drop 8 (c :: rest))
    else c :: subOpenF fuel rest

/-- The substitution of line 203 over the whole content. -/
def subOpen (s : List Char) : List Char := subOpenF s.length s

/-- Fueled scanner for the substitution on line 204: every closing graphic
tag occurrence is deleted. -/
def subCloseF : Nat → List Char → List Char
  | 0, s => s
  | _ + 1, [] => []
  | fuel + 1, c :: rest =>
    if startsWithChars graphicClose (c :: rest) then
      subCloseF fuel (List.drop 10 (c :: rest))
    else c :: subCloseF fuel rest

def subClose (s : List Char) : List Char := subCloseF s.length s

/-- The image tag normalization step of article_to_pdf (lines 202-204). -/
def normalizeGraphicTags (content : List Char) : List Char := subClose (subOpen content)

/-- Modelled from the spec: "Normalize extraction-library-specific image
tags into the generic image-tag form expected by the rendering engine (tag
name substitution only; attributes preserved)".  Under this reading both the
opening and the closing graphic tag names are substituted by the img tag
name and nothing else in the markup changes. -/
def substSpecF : Nat → List Char → List Char
  | 0, s => s
  | _ + 1, [] => []
  | fuel + 1, c :: rest =>
    if startsWithChars graphicOpen (c :: rest) && boundaryAt (List.drop 8 (c :: rest)) then
      imgOpen ++ substSpecF fuel (List.drop 8 (c :: rest))
    else if startsWithChars graphicClose (c :: rest) then
      ['<', '/', 'i', 'm', 'g', '>'] ++ substSpecF fuel (List.drop 10 (c :: rest))
    else c :: substSpecF fuel rest

def substSpecNormalize (s : List Char) : List Char := substSpecF s.length s

/-- Markup segments used to state the amended normalization claim: plain
text, an opening graphic tag carrying its attribute text, or a closing
graphic tag. -/
inductive Seg where
  | text (t : List Char)
  | openTag (attrs : List Char)
  | closeTag
deriving DecidableEq

def renderSeg : Seg → List Char
  | .text t => t
  | .openTag attrs => graphicOpen ++ attrs
  | .closeTag => graphicClose

def renderDoc : List Seg → List Char
  | [] => []
  | s :: rest => renderSeg s ++ renderDoc rest

/-- Per segment effect of the normalization step: the opening tag name
becomes the img tag name with the attribute text untouched, the closing tag
is deleted, and text is kept as it is. -/
def transformSeg : Seg → List Char
  | .text t => t
  | .openTag attrs => imgOpen ++ attrs
  | .closeTag => []

def transformDoc : List Seg → List Char
  | [] => []
  | s :: rest => transformSeg s ++ transformDoc rest

/-- Intermediate segment form after the opening tag pass only. -/
def midSeg : Seg → List Char
  | .text t => t
  | .openTag attrs => imgOpen ++ attrs
  | .closeTag => graphicClose

def midDoc : List Seg → List Char
  | [] => []
  | s :: rest => midSeg s ++ midDoc rest

/-- Side conditions making a segment list read unambiguously: text and
attribute chunks contain no tag opener, and an attribute chunk is nonempty
and starts with a non word character, so the word boundary of the opening
tag pattern holds exactly at the rendered tag names. -/
def goodSeg : Seg → Bool
  | .text t => t.all (fun c => !(c == '<'))
  | .openTag attrs => !attrs.isEmpty && boundaryAt attrs && attrs.all (fun c => !(c == '<'))
  | .closeTag => true

/-- The persisted ledger: insertion ordered key value pairs, mirroring the
JSON object of timestamp strings keyed by stringified bookmark id. -/
abbrev Ledger := List (String × String)

def containsKey (L : Ledger) (k : String) : Bool := L.any (fun p => p.1 == k)

/-- Python dict update: overwrite an existing key in place, otherwise append
a new entry at the end. -/
def ledgerInsert (L : Ledger) (k v : String) : Ledger :=
  if containsKey L k then L.map (fun p => if p.1 == k then (k, v) else p)
  else L ++ [(k, v)]

/-- Whitespace skipped between JSON tokens. -/
def jsonWs (c : Char) : Bool := c == ' ' || c == '\n' || c == '\t' || c == '\r'

def skipJsonWs (l : List Char) : List Char := l.dropWhile jsonWs

/-- JSON string escapes accepted by the model of the loader, as a lookup
from the character after the backslash to the character it denotes. -/
def unescapeChar (c : Char) : Option Char :=
  List.lookup c
    [('"', '"'), ('\\', '\\'), ('/', '/'), ('n', '\n'), ('t', '\t'),
     ('r', '\r'), ('b', '\x08'), ('f', '\x0c')]

/-- Decoded JSON values as json.loads produces them: objects keep their
members (later duplicates of a key overwrite, as in a dict), decoded text
is kept as the sequence of code units its literal denotes (surrogate halves
included, since json.loads keeps lone surrogates), and a number keeps its
literal spelling, which nothing downstream consults. -/
inductive Json where
  | null
  | bool (b : Bool)
  | num (lit : List Char)
  | str (units : List Nat)
  | arr (items : List Json)
  | obj (members : List (List Nat × Json))

/-- Value of one hexadecimal digit, as in a u escape. -/
def hexVal (c : Char) : Option Nat :=
  if '0' ≤ c && c ≤ '9' then some (c.toNat - 48)
  else if 'a' ≤ c && c ≤ 'f' then some (c.toNat - 87)
  else if 'A' ≤ c && c ≤ 'F' then some (c.toNat - 55)
  else none

/-- The body of a JSON string after its opening quote, per json.loads in
its default strict mode: a raw character below code 32 is an error, the
two character escapes decode through unescapeChar, a u escape takes four
hexadecimal digits, and the closing quote ends the text.  The decode
returns the code units and the rest of the input. -/
def parseJString : List Char → Except String (List Nat × List Char)
  | [] => Except.error ("unterminated string")
  | c :: rest =>
    if c == '"' then Except.ok ([], rest)
    else if c == '\\' then
      match rest with
      | 'u' :: h1 :: h2 :: h3 :: h4 :: rest2 =>
        match hexVal h1, hexVal h2, hexVal h3, hexVal h4 with
        | some a, some b, some c2, some d =>
          (parseJString rest2).map
            (fun p => ((((a * 16 + b) * 16 + c2) * 16 + d) :: p.1, p.2))
        | _, _, _, _ => Except.error ("invalid u escape")
      | e :: rest2 =>
        match unescapeChar e with
        | some d => (parseJString rest2).map (fun p => (d.toNat :: p.1, p.2))
        | none => Except.error ("invalid escape")
      | [] => Except.error ("unterminated string")
    else if c.toNat < 32 then Except.error ("control character in string")
    else (parseJString rest).map (fun p => (c.toNat :: p.1, p.2))

/-- The fractional part of a number literal, taken only when a dot is
followed by at least one digit, as in the number regular expression of the
json module; otherwise nothing is consumed. -/
def numFrac : List Char → List Char × List Char
  | '.' :: c :: r =>
    if c.isDigit then ('.' :: c :: r.takeWhile Char.isDigit, r.dropWhile Char.isDigit)
    else ([], '.' :: c :: r)
  | s => ([], s)

/-- The exponent part of a number literal, taken only when e or E is
followed by an optionally signed nonempty digit run; otherwise nothing is
consumed. -/
def numExp : List Char → List Char × List Char
  | c :: r =>
    if c == 'e' || c == 'E' then
      match r with
      | s1 :: r2 =>
        if s1 == '+' || s1 == '-' then
          match r2 with
          | d :: r3 =>
            if d.isDigit then
              (c :: s1 :: d :: r3.takeWhile Char.isDigit, r3.dropWhile Char.isDigit)
            else ([], c :: s1 :: d :: r3)
          | [] => ([], [c, s1])
        else if s1.isDigit then
          (c :: s1 :: r2.takeWhile Char.isDigit, r2.dropWhile Char.isDigit)
        else ([], c :: r)
      | [] => ([], [c])
    else ([], c :: r)
  | [] => ([], [])

/-- A number literal per the json module's regular expression: an optional
minus sign, then a lone zero or a nonzero digit run, then the optional
fraction and exponent; the longest such literal is consumed and anything
after it is left for the caller, exactly as the scanner backtracks. -/
def parseNumber (s : List Char) : Except String (List Char × List Char) :=
  let neg : List Char × List Char :=
    match s with
    | '-' :: r => (['-'], r)
    | _ => ([], s)
  match neg.2 with
  | c :: r =>
    if c == '0' then
      let f := numFrac r
      let e := numExp f.2
      Except.ok (neg.1 ++ '0' :: (f.1 ++ e.1), e.2)
    else if c.isDigit then
      let ds := r.takeWhile Char.isDigit
      let f := numFrac (r.dropWhile Char.isDigit)
      let e := numExp f.2
      Except.ok (neg.1 ++ c :: (ds ++ f.1 ++ e.1), e.2)
    else Except.error ("expecting value")
  | [] => Except.error ("expecting value")

/-- Python dict building while an object literal is read: a repeated key
overwrites in place, a new key is appended. -/
def objInsert (acc : List (List Nat × Json)) (k : List Nat) (v : Json) :
    List (List Nat × Json) :=
  if acc.any (fun m => m.1 == k) then
    acc.map (fun m => if m.1 == k then (k, v) else m)
  else acc ++ [(k, v)]

/-- The three states of the json.loads scanner: reading one value, reading
the members of an object after its opening brace (with the members read so
far), or reading the items of an array after its opening bracket. -/
inductive PMode where
  | value
  | objBody (acc : List (List Nat × Json))
  | arrBody (acc : List Json)

/-- The recursive part of json.loads: one value is an object, an array, a
string, true, false, null, one of the accepted non standard constants NaN,
Infinity and -Infinity, or a number literal.  The fuel only bounds the
recursion depth: every call passes one fuel fewer and at least one
character of the input is consumed for every two calls on a nesting path
(an opening brace or bracket per level), so the fuel parseJson supplies is
always enough. -/
def parseF : Nat → PMode → List Char → Except String (Json × List Char)
  | 0, _, _ => Except.error ("out of fuel")
  | f + 1, PMode.value, s =>
    match skipJsonWs s with
    | '{' :: r =>
      (match skipJsonWs r with
       | '}' :: r2 => Except.ok (Json.obj [], r2)
       | _ => parseF f (PMode.objBody []) r)
    | '[' :: r =>
      (match skipJsonWs r with
       | ']' :: r2 => Except.ok (Json.arr [], r2)
       | _ => parseF f (PMode.arrBody []) r)
    | '"' :: r =>
      (match parseJString r with
       | Except.ok p => Except.ok (Json.str p.1, p.2)
       | Except.error e => Except.error e)
    | 't' :: 'r' :: 'u' :: 'e' :: r => Except.ok (Json.bool true, r)
    | 'f' :: 'a' :: 'l' :: 's' :: 'e' :: r => Except.ok (Json.bool false, r)
    | 'n' :: 'u' :: 'l' :: 'l' :: r => Except.ok (Json.null, r)
    | 'N' :: 'a' :: 'N' :: r => Except.ok (Json.num (("NaN").toList), r)
    | 'I' :: 'n' :: 'f' :: 'i' :: 'n' :: 'i' :: 't' :: 'y' :: r =>
      Except.ok (Json.num (("Infinity").toList), r)
    | '-' :: 'I' :: 'n' :: 'f' :: 'i' :: 'n' :: 'i' :: 't' :: 'y' :: r =>
      Except.ok (Json.num (("-Infinity").toList), r)
    | other =>
      (match parseNumber other with
       | Except.ok p => Except.ok (Json.num p.1, p.2)
       | Except.error e => Except.error e)
  | f + 1, PMode.objBody acc, s =>
    (match skipJsonWs s with
     | '"' :: r =>
       (match parseJString r with
        | Except.error e => Except.error e
        | Except.ok kp =>
          match skipJsonWs kp.2 with
          | ':' :: r3 =>
            (match parseF f PMode.value r3 with
             | Except.error e => Except.error e
             | Except.ok vp =>
               match skipJsonWs vp.2 with
               | ',' :: r5 => parseF f (PMode.objBody (objInsert acc kp.1 vp.1)) r5
               | '}' :: r5 => Except.ok (Json.obj (objInsert acc kp.1 vp.1), r5)
               | _ => Except.error ("expecting comma delimiter"))
          | _ => Except.error ("expecting colon delimiter"))
     | _ => Except.error ("expecting property name"))
  | f + 1, PMode.arrBody acc, s =>
    (match parseF f PMode.value s with
     | Except.error e => Except.error e
     | Except.ok vp =>
       match skipJsonWs vp.2 with
       | ',' :: r2 => parseF f (PMode.arrBody (acc ++ [vp.1])) r2
       | ']' :: r2 => Except.ok (Json.arr (acc ++ [vp.1]), r2)
       | _ => Except.error ("expecting comma delimiter"))

/-- Model of json.loads (line 170): decode one JSON value with whitespace
around it, and refuse trailing text, an unreadable value, or an empty
input, exactly the cases in which the Python decoder raises.  The fuel
bound of twice the length plus two is enough because every two scanner
calls on a nesting path consume at least one input character. -/
def parseJson (s : String) : Except String Json :=
  match parseF (2 * s.toList.length + 2) PMode.value s.toList with
  | Except.error e => Except.error e
  | Except.ok p =>
    if skipJsonWs p.2 = [] then Except.ok p.1 else Except.error ("extra data")

/-- Whether json.loads accepts the text. -/
def isValidJson (s : String) : Bool :=
  match parseJson s with
  | Except.ok _ => true
  | Except.error _ => false

/-- Text from decoded code units; a unit outside the scalar range falls
back to the zero character.  Only used by the ledger projection below,
which no claim consults beyond the missing file and error cases. -/
def stringOfUnits (units : List Nat) : String :=
  String.mk (units.map Char.ofNat)

/-- The decoded ledger value as the mapping main consults (line 243):
save_processed (lines 174-176) persists the ledger as a JSON object of
timestamp strings keyed by stringified ids, and this projection reads that
shape back, collecting the members holding string values.  A file decoding
to any other JSON value is returned as it is by the Python loader and only
ever reaches dict lookups downstream, which no claim of this development
states; such a value carries no entries here. -/
def ledgerOfJson : Json → Ledger
  | Json.obj ms =>
    ms.foldr
      (fun m acc =>
        match m.2 with
        | Json.str v => (stringOfUnits m.1, stringOfUnits v) :: acc
        | _ => acc)
      []
  | _ => []

/-- Filesystem abstraction: a path maps to its contents when a file exists
there. -/
def FileSys : Type := String → Option String

/-- load_processed (lines 168-171): a missing file yields the empty mapping;
an existing file is decoded by json.loads, whose failure propagates as an
error, and whose value is consulted as the processed mapping. -/
def load_processed (fs : FileSys) (path : String) : Except String Ledger :=
  match fs path with
  | none => Except.ok []
  | some text => (parseJson text).map ledgerOfJson

/-- One record of the bookmark listing response. -/
structure Bookmark where
  type : String
  bookmark_id : Nat
  title : String
  url : String
deriving DecidableEq

/-- The listing response: its HTTP status code, and the decoded body used
when the status is 200. -/
structure ApiResponse where
  status_code : Nat
  body : List Bookmark
deriving DecidableEq

/-- fetch_bookmarks (lines 154-165): on a non 200 status an error is logged
(second component) and the empty list is returned; otherwise the records
typed bookmark are kept. -/
def fetch_bookmarks (resp : ApiResponse) : List Bookmark × Bool :=
  if resp.status_code ≠ 200 then ([], true)
  else (resp.body.filter (fun b => b.type == ("bookmark")), false)

/-- str applied to the bookmark id (line 244 and line 254). -/
def bidOf (b : Bookmark) : String := toString b.bookmark_id

/-- The outcome of one iteration of the per item loop, abstracting the
external world: the fetch or the extraction can report failure (returning
False from article_to_pdf) or raise, the rasterization can raise, the
upload can report failure or raise, everything can succeed, or an abrupt
exit outside the per item try block (a non Exception event such as a kill)
can end the loop. -/
inductive ItemOutcome where
  | fetchFail
  | fetchRaise
  | extractFail
  | extractRaise
  | renderRaise
  | uploadFail
  | uploadRaise
  | success
  | escape
deriving DecidableEq

/-- The outcomes modelling an exception raised inside the per item try block
during fetch, extraction, rendering or upload. -/
def raisesCaught : ItemOutcome → Bool
  | .fetchRaise | .extractRaise | .renderRaise | .uploadRaise => true
  | _ => false

/-- Observable events of a run, tagged with the position of the item in the
filtered batch and its stringified id. -/
inductive Event where
  | createTmpdir
  | removeTmpdir
  | summary (n : Nat)
  | processing (i : Nat) (bid : String)
  | fetchCall (i : Nat) (bid : String)
  | extractCall (i : Nat) (bid : String)
  | renderCall (i : Nat) (bid : String)
  | uploadCall (i : Nat) (bid : String)
  | saveLedger (i : Nat) (bid : String)
  | logException (i : Nat) (bid : String)
  | logUploadFailed (i : Nat) (bid : String)
deriving DecidableEq

def evIdx : Event → Option Nat
  | .createTmpdir | .removeTmpdir | .summary _ => none
  | .processing i _ | .fetchCall i _ | .extractCall i _ | .renderCall i _
  | .uploadCall i _ | .saveLedger i _ | .logException i _ | .logUploadFailed i _ => some i

def evBid : Event → Option String
  | .createTmpdir | .removeTmpdir | .summary _ => none
  | .processing _ b | .fetchCall _ b | .extractCall _ b | .renderCall _ b
  | .uploadCall _ b | .saveLedger _ b | .logException _ b | .logUploadFailed _ b => some b

/-- Events of one iteration of the loop body (lines 253-273), following the
source's control flow for the given outcome: fetch failure returns before
extraction, extraction failure before rendering, a raise jumps to the per
item handler which logs the exception, a failed upload is logged and leaves
the ledger alone, and only a successful upload stores the id and saves the
ledger, immediately and before the next item starts. -/
def itemEvents (i : Nat) (bid : String) : ItemOutcome → List Event
  | .fetchFail => [.processing i bid, .fetchCall i bid]
  | .fetchRaise => [.processing i bid, .fetchCall i bid, .logException i bid]
  | .extractFail => [.processing i bid, .fetchCall i bid, .extractCall i bid]
  | .extractRaise =>
    [.processing i bid, .fetchCall i bid, .extractCall i bid, .logException i bid]
  | .renderRaise =>
    [.processing i bid, .fetchCall i bid, .extractCall i bid, .renderCall i bid,
     .logException i bid]
  | .uploadFail =>
    [.processing i bid, .fetchCall i bid, .extractCall i bid, .renderCall i bid,
     .uploadCall i bid, .logUploadFailed i bid]
  | .uploadRaise =>
    [.processing i bid, .fetchCall i bid, .extractCall i bid, .renderCall i bid,
     .uploadCall i bid, .logException i bid]
  | .success =>
    [.processing i bid, .fetchCall i bid, .extractCall i bid, .renderCall i bid,
     .uploadCall i bid, .saveLedger i bid]
  | .escape => [.processing i bid]

/-- Ledger effect of one iteration: only a successful delivery stores the
stringified id (line 267). -/
def outcomeLedger (o : ItemOutcome) (L : Ledger) (bid ts : String) : Ledger :=
  if o = ItemOutcome.success then ledgerInsert L bid ts else L

/-- Whether the loop goes on to the next item: everything except an abrupt
exit does, because the per item handler catches every Exception. -/
def outcomeContinues : ItemOutcome → Bool
  | .escape => false
  | _ => true

/-- The per item loop of main (lines 253-273): threads the ledger, collects
the event trace, and reports whether the loop ran to completion. -/
def runLoop (outs : Nat → ItemOutcome) (ts : Nat → String) :
    List Bookmark → Nat → Ledger → Ledger × List Event × Bool
  | [], _, L => (L, [], true)
  | b :: rest, i, L =>
    let o := outs i
    let L' := outcomeLedger o L (bidOf b) (ts i)
    if outcomeContinues o then
      let r := runLoop outs ts rest (i + 1) L'
      (r.1, itemEvents i (bidOf b) o ++ r.2.1, r.2.2)
    else (L', itemEvents i (bidOf b) o, false)

/-- The filtering of line 244: keep the bookmarks whose stringified id is
absent from the loaded ledger. -/
def newBookmarks (bs : List Bookmark) (L : Ledger) : List Bookmark :=
  bs.filter (fun b => !containsKey L (bidOf b))

/-- main from line 238 on, given the fetched bookmark list, the loaded
ledger, the per item outcomes and the timestamp source: an empty fetch
result or an empty filtered batch returns before the temporary directory is
created; otherwise the directory is created, the loop runs, the directory
is removed in the finally block whether the loop completed or was exited
abruptly, and the completion path logs the summary with the size of the
whole ledger (line 277). -/
def mainRun (bookmarks : List Bookmark) (L0 : Ledger) (outs : Nat → ItemOutcome)
    (ts : Nat → String) : Ledger × List Event :=
  if bookmarks.isEmpty then (L0, [])
  else
    let news := newBookmarks bookmarks L0
    if news.isEmpty then (L0, [])
    else
      let r := runLoop outs ts news 0 L0
      (r.1, Event.createTmpdir ::
        (r.2.1 ++ Event.removeTmpdir ::
          (if r.2.2 then [Event.summary r.1.length] else [])))

/-- Number of successful outcomes among n consecutive items starting at
index i. -/
def countSuccesses (outs : Nat → ItemOutcome) : Nat → Nat → Nat
  | _, 0 => 0
  | i, n + 1 =>
    (if outs i = ItemOutcome.success then 1 else 0) + countSuccesses outs (i + 1) n

/-- Event order discipline: indexed events occur in nondecreasing item
order along the trace. -/
abbrev idxLE (e f : Event) : Prop :=
  ∀ a b, evIdx e = some a → evIdx f = some b → a ≤ b

/-! General list helpers. -/

lemma chain_of_inf {α : Type} {R : α → α → Prop} {m l : List α}
    (h : List.Chain' R l) (hm : m <:+: l) : List.Chain' R m := by
  obtain ⟨s, t, rfl⟩ := hm
  have h1 := (List.chain'_append.mp h).1
  exact (List.chain'_append.mp h1).2.1

lemma head?_take_pos {α : Type} {n : Nat} (hn : 0 < n) (l : List α) :
    (l.take n).head? = l.head? := by
  cases l with
  | nil => simp
  | cons a t =>
    cases n with
    | zero => omega
    | succ m => simp

lemma pairwise_of_all {α : Type} {R : α → α → Prop} (l : List α)
    (h : ∀ a ∈ l, ∀ b ∈ l, R a b) : l.Pairwise R :=
  List.pairwise_of_forall_mem_list h

lemma dropWhile_head_false {α : Type} {p : α → Bool} {l : List α} {c : α}
    (h : (l.dropWhile p).head? = some c) : p c = false := by
  have h2 := List.head?_dropWhile_not p l
  rw [h] at h2
  exact h2

/-! Lemmas on the whitespace collapsing pass of sanitize_filename. -/

lemma collapseWsAux_mem : ∀ (l : List Char) (st : Bool) (c : Char),
    c ∈ collapseWsAux st l → c = ' ' ∨ (c ∈ l ∧ pySpace c = false) := by
  intro l
  induction l with
  | nil => intro st c h; simp [collapseWsAux] at h
  | cons a rest ih =>
    intro st c h
    by_cases ha : pySpace a
    · cases st with
      | true =>
        simp only [collapseWsAux, ha, if_true] at h
        rcases ih true c h with h1 | ⟨h2, h3⟩
        · exact Or.inl h1
        · exact Or.inr ⟨List.mem_cons_of_mem _ h2, h3⟩
      | false =>
        simp only [collapseWsAux, ha, if_true] at h
        rcases List.mem_cons.mp h with rfl | h'
        · exact Or.inl rfl
        · rcases ih true c h' with h1 | ⟨h2, h3⟩
          · exact Or.inl h1
          · exact Or.inr ⟨List.mem_cons_of_mem _ h2, h3⟩
    · simp only [collapseWsAux, ha, if_false] at h
      rcases List.mem_cons.mp h with rfl | h'
      · exact Or.inr ⟨List.mem_cons_self _ _, by simpa using ha⟩
      · rcases ih false c h' with h1 | ⟨h2, h3⟩
        · exact Or.inl h1
        · exact Or.inr ⟨List.mem_cons_of_mem _ h2, h3⟩

lemma collapseWsAux_head_true : ∀ (l : List Char) (c : Char),
    (collapseWsAux true l).head? = some c → pySpace c = false := by
  intro l
  induction l with
  | nil => intro c h; simp [collapseWsAux] at h
  | cons a rest ih =>
    intro c h
    by_cases ha : pySpace a
    · simp only [collapseWsAux, ha, if_true] at h
      exact ih c h
    · simp only [collapseWsAux, ha, if_false] at h
      have hac : a = c := by simpa using h
      subst hac
      simpa using ha

lemma collapseWsAux_chain : ∀ (l : List Char) (st : Bool),
    List.Chain' noWsPair (collapseWsAux st l) := by
  intro l
  induction l with
  | nil => intro st; simp [collapseWsAux]
  | cons a rest ih =>
    intro st
    by_cases ha : pySpace a
    · cases st with
      | true => simpa only [collapseWsAux, ha, if_true] using ih true
      | false =>
        simp only [collapseWsAux, ha, if_true]
        refine List.chain'_cons'.mpr ⟨?_, ih true⟩
        intro y hy
        exact Or.inr (collapseWsAux_head_true rest y hy)
    · simp only [collapseWsAux, ha, if_false]
      refine List.chain'_cons'.mpr ⟨?_, ih false⟩
      intro y _
      exact Or.inl (by simpa using ha)

/-! Lemmas on the strip step. -/

lemma pyStrip_pre (l : List Char) : pyStrip l <+: l.dropWhile pySpace := by
  unfold pyStrip
  obtain ⟨t, ht⟩ :=
    (List.dropWhile_suffix pySpace :
      ((l.dropWhile pySpace).reverse).dropWhile pySpace <:+ (l.dropWhile pySpace).reverse)
  refine ⟨t.reverse, ?_⟩
  have := congrArg List.reverse ht
  simpa [List.reverse_append] using this

lemma pyStrip_inf (l : List Char) : pyStrip l <:+: l := by
  have h1 := pyStrip_pre l
  have h2 : l.dropWhile pySpace <:+ l := List.dropWhile_suffix pySpace
  exact List.IsPrefix.isInfix h1 |>.trans (List.IsSuffix.isInfix h2)

lemma pyStrip_head {l : List Char} {c : Char}
    (h : (pyStrip l).head? = some c) : pySpace c = false := by
  obtain ⟨t, ht⟩ := pyStrip_pre l
  cases hs : pyStrip l with
  | nil => rw [hs] at h; simp at h
  | cons x xs =>
    rw [hs] at h
    simp only [List.head?_cons, Option.some.injEq] at h
    subst h
    have hh : (l.dropWhile pySpace).head? = some x := by
      rw [← ht, hs]
      simp
    exact dropWhile_head_false hh

lemma pyStrip_last {l : List Char} {c : Char}
    (h : (pyStrip l).getLast? = some c) : pySpace c = false := by
  unfold pyStrip at h
  rw [List.getLast?_reverse] at h
  exact dropWhile_head_false h

/-! sanitize_filename unfolding equations. -/

lemma sanitize_eq_untitled {title : List Char}
    (h : pyStrip (collapseWs (title.filter (fun c => !forbiddenChar c))) = []) :
    sanitize_filename title = ("untitled").toList := by
  simp [sanitize_filename, h]

lemma sanitize_eq_take {title : List Char}
    (h : ¬ pyStrip (collapseWs (title.filter (fun c => !forbiddenChar c))) = []) :
    sanitize_filename title =
      (pyStrip (collapseWs (title.filter (fun c => !forbiddenChar c)))).take 120 := by
  simp [sanitize_filename, h]

lemma sanitize_take_inf (title : List Char) :
    (pyStrip (collapseWs (title.filter (fun c => !forbiddenChar c)))).take 120 <:+:
      collapseWs (title.filter (fun c => !forbiddenChar c)) := by
  have h1 := List.take_prefix 120
    (pyStrip (collapseWs (title.filter (fun c => !forbiddenChar c))))
  have h2 := pyStrip_inf (collapseWs (title.filter (fun c => !forbiddenChar c)))
  exact List.IsPrefix.isInfix h1 |>.trans h2

/-- C2 (amended): every filename derived by sanitize_filename contains none
of the reserved characters, never has two adjacent whitespace characters
(whitespace runs are collapsed to single spaces), has no leading whitespace,
is at most 120 characters long, equals the fixed fallback name untitled when
the sanitized name is empty, and has no trailing whitespace whenever the
stripped name fits the 120 character bound.  The original claim's
unconditional trailing trim fails: truncation is applied after stripping and
can cut right after an inner space (see the counterexample). -/
theorem sanitize_filename_props (title : List Char) :
    (∀ c ∈ sanitize_filename title, forbiddenChar c = false) ∧
    List.Chain' noWsPair (sanitize_filename title) ∧
    (∀ c, (sanitize_filename title).head? = some c → pySpace c = false) ∧
    (sanitize_filename title).length ≤ 120 ∧
    (pyStrip (collapseWs (title.filter (fun c => !forbiddenChar c))) = [] →
      sanitize_filename title = ("untitled").toList) ∧
    ((pyStrip (collapseWs (title.filter (fun c => !forbiddenChar c)))).length ≤ 120 →
      ∀ c, (sanitize_filename title).getLast? = some c → pySpace c = false) := by
  by_cases h : pyStrip (collapseWs (title.filter (fun c => !forbiddenChar c))) = []
  · have he : ("untitled").toList = ['u', 'n', 't', 'i', 't', 'l', 'e', 'd'] := rfl
    rw [sanitize_eq_untitled h]
    refine ⟨by decide, ?_, ?_, by decide, fun _ => rfl, fun _ c hc => ?_⟩
    · rw [he]
      simp only [List.chain'_cons, List.chain'_singleton, noWsPair, and_true]
      decide
    · intro c hc
      rw [he] at hc
      simp only [List.head?_cons, Option.some.injEq] at hc
      subst hc
      decide
    · have hd : (("untitled").toList).getLast? = some 'd' := rfl
      rw [hd] at hc
      have hcd : 'd' = c := by simpa using hc
      subst hcd
      decide
  · have heq := sanitize_eq_take h
    refine ⟨?_, ?_, ?_, ?_, fun hh => absurd hh h, ?_⟩
    · intro c hc
      rw [heq] at hc
      have hc2 : c ∈ collapseWs (title.filter (fun c => !forbiddenChar c)) :=
        List.IsInfix.subset (sanitize_take_inf title) hc
      rcases collapseWsAux_mem _ false c hc2 with rfl | ⟨hmem, _⟩
      · decide
      · have := (List.mem_filter.mp hmem).2
        simpa using this
    · rw [heq]
      exact chain_of_inf (collapseWsAux_chain _ false) (sanitize_take_inf title)
    · intro c hc
      rw [heq] at hc
      rw [head?_take_pos (by omega)] at hc
      exact pyStrip_head hc
    · rw [heq, List.length_take]
      omega
    · intro hlen c hc
      rw [heq, List.take_of_length_le hlen] at hc
      exact pyStrip_last hc

/-- C2 counterexample: the claim asserts the derived filename is trimmed of
trailing whitespace, but truncation happens after stripping: a title whose
sanitized form is 119 x characters, a space and a y is truncated to 120
characters and the derived filename ends in a space. -/
theorem sanitize_filename_trailing_ws_cex :
    (sanitize_filename (List.replicate 119 'x' ++ [' ', 'y'])).getLast? = some ' ' ∧
    pySpace ' ' = true := by
  constructor
  · rfl
  · decide

/-- C2 witness: the empty sanitized name falls back to the fixed default. -/
theorem sanitize_filename_props_w :
    sanitize_filename (("<>:?").toList) = ("untitled").toList :=
  (sanitize_filename_props (("<>:?").toList)).2.2.2.2.1 (by decide)

/-! Lemmas on the two substitution scanners of the normalization step. -/

lemma subOpenF_nil : ∀ f, subOpenF f [] = [] := by
  intro f
  cases f <;> rfl

lemma subCloseF_nil : ∀ f, subCloseF f [] = [] := by
  intro f
  cases f <;> rfl

lemma subOpenF_fuel : ∀ (f1 f2 : Nat) (s : List Char),
    s.length ≤ f1 → s.length ≤ f2 → subOpenF f1 s = subOpenF f2 s := by
  intro f1
  induction f1 with
  | zero =>
    intro f2 s h1 _
    have hs : s = [] := List.eq_nil_of_length_eq_zero (Nat.le_zero.mp h1)
    subst hs
    rw [subOpenF_nil, subOpenF_nil]
  | succ n ih =>
    intro f2 s h1 h2
    cases s with
    | nil => rw [subOpenF_nil, subOpenF_nil]
    | cons c rest =>
      cases f2 with
      | zero => simp at h2
      | succ m =>
        have hdl : (List.drop 8 (c :: rest)).length = rest.length + 1 - 8 := by
          simp [List.length_drop]
        have hcl : (c :: rest).length = rest.length + 1 := by simp
        rw [hcl] at h1 h2
        simp only [subOpenF]
        by_cases hcond : (startsWithChars graphicOpen (c :: rest) &&
            boundaryAt (List.drop 8 (c :: rest))) = true
        · rw [if_pos hcond, if_pos hcond, ih m _ (by omega) (by omega)]
        · rw [if_neg hcond, if_neg hcond, ih m rest (by omega) (by omega)]

lemma subCloseF_fuel : ∀ (f1 f2 : Nat) (s : List Char),
    s.length ≤ f1 → s.length ≤ f2 → subCloseF f1 s = subCloseF f2 s := by
  intro f1
  induction f1 with
  | zero =>
    intro f2 s h1 _
    have hs : s = [] := List.eq_nil_of_length_eq_zero (Nat.le_zero.mp h1)
    subst hs
    rw [subCloseF_nil, subCloseF_nil]
  | succ n ih =>
    intro f2 s h1 h2
    cases s with
    | nil => rw [subCloseF_nil, subCloseF_nil]
    | cons c rest =>
      cases f2 with
      | zero => simp at h2
      | succ m =>
        have hdl : (List.drop 10 (c :: rest)).length = rest.length + 1 - 10 := by
          simp [List.length_drop]
        have hcl : (c :: rest).length = rest.length + 1 := by simp
        rw [hcl] at h1 h2
        simp only [subCloseF]
        by_cases hcond : startsWithChars graphicClose (c :: rest) = true
        · rw [if_pos hcond, if_pos hcond, ih m _ (by omega) (by omega)]
        · rw [if_neg hcond, if_neg hcond, ih m rest (by omega) (by omega)]

lemma subOpen_cons_ne {c : Char} {l : List Char} (h : ¬ c = '<') :
    subOpen (c :: l) = c :: subOpen l := by
  show subOpenF (c :: l).length (c :: l) = c :: subOpenF l.length l
  have h1 : ('<' == c) = false := beq_eq_false_iff_ne.mpr (fun hh => h hh.symm)
  have hsw : startsWithChars graphicOpen (c :: l) = false := by
    simp [graphicOpen, startsWithChars, h1]
  rw [List.length_cons]
  simp only [subOpenF, hsw, Bool.false_and, Bool.false_eq_true, if_false]

lemma subOpen_cons2_ne {c : Char} {l : List Char} (h : ¬ c = 'g') :
    subOpen ('<' :: c :: l) = '<' :: subOpen (c :: l) := by
  show subOpenF ('<' :: c :: l).length ('<' :: c :: l) = '<' :: subOpenF (c :: l).length (c :: l)
  have h1 : ('g' == c) = false := beq_eq_false_iff_ne.mpr (fun hh => h hh.symm)
  have hsw : startsWithChars graphicOpen ('<' :: c :: l) = false := by
    simp [graphicOpen, startsWithChars, h1]
  rw [List.length_cons]
  simp only [subOpenF, hsw, Bool.false_and, Bool.false_eq_true, if_false]

lemma subClose_cons_ne {c : Char} {l : List Char} (h : ¬ c = '<') :
    subClose (c :: l) = c :: subClose l := by
  show subCloseF (c :: l).length (c :: l) = c :: subCloseF l.length l
  have h1 : ('<' == c) = false := beq_eq_false_iff_ne.mpr (fun hh => h hh.symm)
  have hsw : startsWithChars graphicClose (c :: l) = false := by
    simp [graphicClose, startsWithChars, h1]
  rw [List.length_cons]
  simp only [subCloseF, hsw, Bool.false_eq_true, if_false]

lemma subClose_cons2_ne {c : Char} {l : List Char} (h : ¬ c = '/') :
    subClose ('<' :: c :: l) = '<' :: subClose (c :: l) := by
  show subCloseF ('<' :: c :: l).length ('<' :: c :: l) =
    '<' :: subCloseF (c :: l).length (c :: l)
  have h1 : ('/' == c) = false := beq_eq_false_iff_ne.mpr (fun hh => h hh.symm)
  have hsw : startsWithChars graphicClose ('<' :: c :: l) = false := by
    simp [graphicClose, startsWithChars, h1]
  rw [List.length_cons]
  simp only [subCloseF, hsw, Bool.false_eq_true, if_false]

lemma subOpen_no_lt : ∀ (t : List Char), (∀ c ∈ t, ¬ c = '<') →
    ∀ s, subOpen (t ++ s) = t ++ subOpen s := by
  intro t
  induction t with
  | nil => intro _ s; simp
  | cons a t' ih =>
    intro h s
    have ha : ¬ a = '<' := h a (List.mem_cons_self a t')
    rw [List.cons_append, subOpen_cons_ne ha,
      ih (fun c hc => h c (List.mem_cons_of_mem _ hc)) s]
    rfl

lemma subClose_no_lt : ∀ (t : List Char), (∀ c ∈ t, ¬ c = '<') →
    ∀ s, subClose (t ++ s) = t ++ subClose s := by
  intro t
  induction t with
  | nil => intro _ s; simp
  | cons a t' ih =>
    intro h s
    have ha : ¬ a = '<' := h a (List.mem_cons_self a t')
    rw [List.cons_append, subClose_cons_ne ha,
      ih (fun c hc => h c (List.mem_cons_of_mem _ hc)) s]
    rfl

lemma subOpen_open {s : List Char} (hb : boundaryAt s = true) :
    subOpen (graphicOpen ++ s) = imgOpen ++ subOpen s := by
  show subOpenF (graphicOpen ++ s).length (graphicOpen ++ s) = imgOpen ++ subOpenF s.length s
  have h8 : (graphicOpen ++ s).length = s.length + 7 + 1 := by
    simp [graphicOpen]
  rw [h8]
  have hform : graphicOpen ++ s =
      '<' :: 'g' :: 'r' :: 'a' :: 'p' :: 'h' :: 'i' :: 'c' :: s := rfl
  rw [hform]
  have hsw : startsWithChars graphicOpen
      ('<' :: 'g' :: 'r' :: 'a' :: 'p' :: 'h' :: 'i' :: 'c' :: s) = true := by
    simp [graphicOpen, startsWithChars]
  have hdrop : List.drop 8 ('<' :: 'g' :: 'r' :: 'a' :: 'p' :: 'h' :: 'i' :: 'c' :: s) = s := rfl
  simp only [subOpenF, hsw, hdrop, hb, Bool.and_self, if_true]
  exact congrArg (imgOpen ++ ·) (subOpenF_fuel _ _ _ (by omega) (by omega))

lemma subOpen_close (s : List Char) :
    subOpen (graphicClose ++ s) = graphicClose ++ subOpen s := by
  have h1 : graphicClose ++ s = '<' :: '/' :: (['g', 'r', 'a', 'p', 'h', 'i', 'c', '>'] ++ s) :=
    rfl
  rw [h1, subOpen_cons2_ne (by decide), subOpen_cons_ne (by decide),
    subOpen_no_lt ['g', 'r', 'a', 'p', 'h', 'i', 'c', '>'] (by decide) s]
  rfl

lemma subClose_close (s : List Char) :
    subClose (graphicClose ++ s) = subClose s := by
  show subCloseF (graphicClose ++ s).length (graphicClose ++ s) = subCloseF s.length s
  have h10 : (graphicClose ++ s).length = s.length + 9 + 1 := by
    simp [graphicClose]
  rw [h10]
  have hform : graphicClose ++ s =
      '<' :: '/' :: 'g' :: 'r' :: 'a' :: 'p' :: 'h' :: 'i' :: 'c' :: '>' :: s := rfl
  rw [hform]
  have hsw : startsWithChars graphicClose
      ('<' :: '/' :: 'g' :: 'r' :: 'a' :: 'p' :: 'h' :: 'i' :: 'c' :: '>' :: s) = true := by
    simp [graphicClose, startsWithChars]
  have hdrop : List.drop 10
      ('<' :: '/' :: 'g' :: 'r' :: 'a' :: 'p' :: 'h' :: 'i' :: 'c' :: '>' :: s) = s := rfl
  simp only [subCloseF, hsw, hdrop, if_true]
  exact subCloseF_fuel _ _ _ (by omega) (by omega)

lemma subClose_img (s : List Char) :
    subClose (imgOpen ++ s) = imgOpen ++ subClose s := by
  have h1 : imgOpen ++ s = '<' :: 'i' :: (['m', 'g'] ++ s) := rfl
  rw [h1, subClose_cons2_ne (by decide), subClose_cons_ne (by decide),
    subClose_no_lt ['m', 'g'] (by decide) s]
  rfl

/-! The two passes over a well formed segment list. -/

lemma subOpen_renderDoc : ∀ (segs : List Seg), (∀ sg ∈ segs, goodSeg sg = true) →
    subOpen (renderDoc segs) = midDoc segs := by
  intro segs
  induction segs with
  | nil => intro _; rfl
  | cons sg rest ih =>
    intro h
    have hsg := h sg (List.mem_cons_self _ _)
    have hrest := fun x hx => h x (List.mem_cons_of_mem _ hx)
    cases sg with
    | text t =>
      have ht : ∀ c ∈ t, ¬ c = '<' := by simpa [goodSeg] using hsg
      show subOpen (t ++ renderDoc rest) = t ++ midDoc rest
      rw [subOpen_no_lt t ht, ih hrest]
    | openTag attrs =>
      have h3 := hsg
      simp only [goodSeg, Bool.and_eq_true] at h3
      obtain ⟨⟨hne, hb⟩, hall⟩ := h3
      have hattr : ∀ c ∈ attrs, ¬ c = '<' := by
        intro c hc
        have := List.all_eq_true.mp hall c hc
        simpa using this
      have hb2 : boundaryAt (attrs ++ renderDoc rest) = true := by
        cases attrs with
        | nil => simp [List.isEmpty_nil] at hne
        | cons a t => simpa [boundaryAt] using hb
      show subOpen ((graphicOpen ++ attrs) ++ renderDoc rest) = (imgOpen ++ attrs) ++ midDoc rest
      rw [List.append_assoc, subOpen_open hb2, subOpen_no_lt attrs hattr, ih hrest,
        List.append_assoc]
    | closeTag =>
      show subOpen (graphicClose ++ renderDoc rest) = graphicClose ++ midDoc rest
      rw [subOpen_close, ih hrest]

lemma subClose_midDoc : ∀ (segs : List Seg), (∀ sg ∈ segs, goodSeg sg = true) →
    subClose (midDoc segs) = transformDoc segs := by
  intro segs
  induction segs with
  | nil => intro _; rfl
  | cons sg rest ih =>
    intro h
    have hsg := h sg (List.mem_cons_self _ _)
    have hrest := fun x hx => h x (List.mem_cons_of_mem _ hx)
    cases sg with
    | text t =>
      have ht : ∀ c ∈ t, ¬ c = '<' := by simpa [goodSeg] using hsg
      show subClose (t ++ midDoc rest) = t ++ transformDoc rest
      rw [subClose_no_lt t ht, ih hrest]
    | openTag attrs =>
      have h3 := hsg
      simp only [goodSeg, Bool.and_eq_true] at h3
      obtain ⟨⟨_, _⟩, hall⟩ := h3
      have hattr : ∀ c ∈ attrs, ¬ c = '<' := by
        intro c hc
        have := List.all_eq_true.mp hall c hc
        simpa using this
      show subClose ((imgOpen ++ attrs) ++ midDoc rest) = (imgOpen ++ attrs) ++ transformDoc rest
      rw [List.append_assoc, subClose_img, subClose_no_lt attrs hattr, ih hrest,
        List.append_assoc]
    | closeTag =>
      show subClose (graphicClose ++ midDoc rest) = [] ++ transformDoc rest
      rw [subClose_close, ih hrest]
      rfl

/-- C3 (amended): over any well formed markup (text free of tag openers,
opening graphic tags whose attribute text starts with a non word character
and contains no tag opener, and closing graphic tags), the normalization
step renames every opening graphic tag name to the img tag name with its
attributes preserved, deletes every closing graphic tag, and makes no other
change.  The original claim fails because closing tags are deleted, not
renamed (see the counterexample). -/
theorem normalizeGraphicTags_segs (segs : List Seg)
    (h : ∀ sg ∈ segs, goodSeg sg = true) :
    normalizeGraphicTags (renderDoc segs) = transformDoc segs := by
  unfold normalizeGraphicTags
  rw [subOpen_renderDoc segs h, subClose_midDoc segs h]

/-- C3 counterexample: the normalization is not a pure tag name
substitution: a closing graphic tag is erased from the markup, while the
substitution reading of the spec would rename it to a closing img tag. -/
theorem normalizeGraphicTags_cex :
    normalizeGraphicTags (("a</graphic>b").toList) = ("ab").toList ∧
    substSpecNormalize (("a</graphic>b").toList) = ("a</img>b").toList ∧
    ¬ normalizeGraphicTags (("a</graphic>b").toList)
        = substSpecNormalize (("a</graphic>b").toList) := by
  refine ⟨rfl, rfl, by decide⟩

/-- C3 witness: a concrete document with text, one attributed image tag and
one closing tag, normalized as the amended claim states. -/
theorem normalizeGraphicTags_segs_w :
    normalizeGraphicTags (renderDoc
      [Seg.text (("hello ").toList), Seg.openTag ((" src=\"i.png\">").toList),
       Seg.closeTag, Seg.text (("!").toList)]) =
    transformDoc
      [Seg.text (("hello ").toList), Seg.openTag ((" src=\"i.png\">").toList),
       Seg.closeTag, Seg.text (("!").toList)] :=
  normalizeGraphicTags_segs _ (by decide)

/-- C6: loading the ledger from a path where no file exists yields the
empty mapping and never an error (lines 168-171). -/
theorem load_processed_missing (fs : FileSys) (path : String)
    (h : fs path = none) : load_processed fs path = Except.ok [] := by
  unfold load_processed
  rw [h]

/-- C6 witness: a filesystem with no files at all. -/
theorem load_processed_missing_w :
    load_processed (fun _ => none) ("ledger.json") = Except.ok [] :=
  load_processed_missing _ _ rfl

/-- Evidence that the json.loads model accepts valid JSON beyond the flat
ledger shape: numbers, arrays, booleans, null, nesting and a repeated
key. -/
lemma isValidJson_general :
    isValidJson ("\x7b\"a\": [1, 2.5e-3, null, true, false], \"a\": \x7b\"n\": -0\x7d\x7d")
      = true := by
  decide

/-- Evidence that the json.loads model accepts u escapes, surrogate halves
and the non standard constants the Python decoder admits. -/
lemma isValidJson_escapes :
    isValidJson ("[\"\\ud83d\\ude00 \\n \\u0041\", NaN, Infinity, -Infinity]") = true := by
  decide

/-- C9: when a file exists at the ledger path but its contents are not
valid JSON, loading propagates the decoding error instead of returning a
mapping; the never an error guarantee holds only for the missing file case
(lines 168-171, with json.loads modelled by an executable decoder of the
full JSON grammar the Python decoder accepts). -/
theorem load_processed_invalid (fs : FileSys) (path : String) (text : String)
    (hex : fs path = some text) (hbad : isValidJson text = false) :
    ∃ e, load_processed fs path = Except.error e := by
  unfold load_processed
  rw [hex]
  unfold isValidJson at hbad
  cases hp : parseJson text with
  | ok v => rw [hp] at hbad; simp at hbad
  | error e =>
    refine ⟨e, ?_⟩
    show (parseJson text).map ledgerOfJson = Except.error e
    rw [hp]
    rfl

/-- C9 witness: a ledger file holding text that is not JSON at all. -/
theorem load_processed_invalid_w :
    ∃ e, load_processed (fun _ => some ("not json")) ("ledger.json") = Except.error e :=
  load_processed_invalid _ ("ledger.json") ("not json") rfl (by decide)

/-- C7: a non 2xx response to the bookmark listing call produces the empty
item list with an error logged, rather than an abort (lines 160-162; the
source returns the empty list on any non 200 status, which covers every
non 2xx status). -/
theorem fetch_bookmarks_non2xx (resp : ApiResponse)
    (h : resp.status_code < 200 ∨ 300 ≤ resp.status_code) :
    fetch_bookmarks resp = ([], true) := by
  unfold fetch_bookmarks
  have hne : resp.status_code ≠ 200 := by omega
  rw [if_pos hne]

/-- C7 witness: a 404 listing response with a nonempty body still yields no
items and an error log. -/
theorem fetch_bookmarks_non2xx_w :
    fetch_bookmarks ⟨404, [⟨("bookmark"), 7, ("t"), ("u")⟩]⟩ = ([], true) :=
  fetch_bookmarks_non2xx _ (Or.inr (by decide))

/-! Ledger dictionary lemmas. -/

lemma containsKey_map_update (L : Ledger) (k v k' : String) :
    containsKey (L.map (fun p => if p.1 == k then (k, v) else p)) k' = containsKey L k' := by
  induction L with
  | nil => rfl
  | cons p t ih =>
    by_cases hp : (p.1 == k) = true
    · have hk : p.1 = k := by simpa using hp
      simp only [containsKey, List.map_cons, List.any_cons] at *
      rw [if_pos hp, ih]
      have hkk : (k == k') = (p.1 == k') := by rw [hk]
      simp [hkk]
    · simp only [containsKey, List.map_cons, List.any_cons] at *
      rw [if_neg hp, ih]

lemma containsKey_ledgerInsert (L : Ledger) (k v k' : String) :
    containsKey (ledgerInsert L k v) k' = (containsKey L k' || (k == k')) := by
  unfold ledgerInsert
  by_cases h : containsKey L k = true
  · rw [if_pos h, containsKey_map_update]
    by_cases hkk : (k == k') = true
    · have hk : k = k' := by simpa using hkk
      subst hk
      simp [h]
    · simp only [hkk, Bool.or_false]
  · rw [if_neg h]
    simp [containsKey, List.any_append]

lemma ledgerInsert_length_fresh {L : Ledger} {k v : String}
    (h : containsKey L k = false) :
    (ledgerInsert L k v).length = L.length + 1 := by
  unfold ledgerInsert
  rw [if_neg (by simp [h]), List.length_append]
  rfl

/-! Per item loop lemmas. -/

lemma outcomeContinues_of_ne {o : ItemOutcome} (h : o ≠ ItemOutcome.escape) :
    outcomeContinues o = true := by
  cases o <;> first | rfl | exact absurd rfl h

lemma outcomeContinues_false {o : ItemOutcome}
    (h : outcomeContinues o = false) : o = ItemOutcome.escape := by
  cases o <;> simp_all [outcomeContinues]

lemma itemEvents_tag (i : Nat) (bid : String) (o : ItemOutcome) :
    ∀ e ∈ itemEvents i bid o, evIdx e = some i ∧ evBid e = some bid := by
  cases o <;> simp [itemEvents, evIdx, evBid]

lemma runLoop_nil (outs : Nat → ItemOutcome) (ts : Nat → String) (i : Nat) (L : Ledger) :
    runLoop outs ts [] i L = (L, [], true) := rfl

lemma runLoop_cons_cont (outs : Nat → ItemOutcome) (ts : Nat → String)
    (b : Bookmark) (rest : List Bookmark) (i : Nat) (L : Ledger)
    (h : outcomeContinues (outs i) = true) :
    runLoop outs ts (b :: rest) i L =
      ((runLoop outs ts rest (i + 1) (outcomeLedger (outs i) L (bidOf b) (ts i))).1,
       itemEvents i (bidOf b) (outs i) ++
         (runLoop outs ts rest (i + 1) (outcomeLedger (outs i) L (bidOf b) (ts i))).2.1,
       (runLoop outs ts rest (i + 1) (outcomeLedger (outs i) L (bidOf b) (ts i))).2.2) := by
  simp only [runLoop]
  rw [if_pos h]

lemma runLoop_cons_stop (outs : Nat → ItemOutcome) (ts : Nat → String)
    (b : Bookmark) (rest : List Bookmark) (i : Nat) (L : Ledger)
    (h : outcomeContinues (outs i) = false) :
    runLoop outs ts (b :: rest) i L =
      (outcomeLedger (outs i) L (bidOf b) (ts i), itemEvents i (bidOf b) (outs i), false) := by
  simp only [runLoop]
  rw [if_neg (by simp [h])]

lemma runLoop_mem_bid (outs : Nat → ItemOutcome) (ts : Nat → String) :
    ∀ (news : List Bookmark) (i : Nat) (L : Ledger) (e : Event),
    e ∈ (runLoop outs ts news i L).2.1 →
    ∃ j b, news[j]? = some b ∧ evIdx e = some (i + j) ∧ evBid e = some (bidOf b) := by
  intro news
  induction news with
  | nil => intro i L e he; rw [runLoop_nil] at he; simp at he
  | cons b rest ih =>
    intro i L e he
    by_cases hc : outcomeContinues (outs i) = true
    · rw [runLoop_cons_cont _ _ _ _ _ _ hc] at he
      rcases List.mem_append.mp he with h1 | h2
      · obtain ⟨hidx, hbid⟩ := itemEvents_tag i (bidOf b) (outs i) e h1
        exact ⟨0, b, by simp, by simpa using hidx, hbid⟩
      · obtain ⟨j, b', hj, hidx, hbid⟩ := ih (i + 1) _ e h2
        have he2 : (i + 1) + j = i + (j + 1) := by omega
        exact ⟨j + 1, b', by simpa using hj, by rw [hidx, he2], hbid⟩
    · have hc' : outcomeContinues (outs i) = false := by simpa using hc
      rw [runLoop_cons_stop _ _ _ _ _ _ hc'] at he
      obtain ⟨hidx, hbid⟩ := itemEvents_tag i (bidOf b) (outs i) e he
      exact ⟨0, b, by simp, by simpa using hidx, hbid⟩

lemma runLoop_pairwise (outs : Nat → ItemOutcome) (ts : Nat → String) :
    ∀ (news : List Bookmark) (i : Nat) (L : Ledger),
    (runLoop outs ts news i L).2.1.Pairwise idxLE := by
  intro news
  induction news with
  | nil => intro i L; rw [runLoop_nil]; exact List.Pairwise.nil
  | cons b rest ih =>
    intro i L
    have hblock : ∀ (M : Ledger), (itemEvents i (bidOf b) (outs i)).Pairwise idxLE := by
      intro _
      apply pairwise_of_all
      intro e he f hf
      obtain ⟨hei, _⟩ := itemEvents_tag _ _ _ e he
      obtain ⟨hfi, _⟩ := itemEvents_tag _ _ _ f hf
      intro a a' ha ha'
      rw [hei] at ha
      rw [hfi] at ha'
      injection ha with h1
      injection ha' with h2
      omega
    by_cases hc : outcomeContinues (outs i) = true
    · rw [runLoop_cons_cont _ _ _ _ _ _ hc]
      refine List.pairwise_append.mpr ⟨hblock L, ih _ _, ?_⟩
      intro e he f hf
      obtain ⟨hei, _⟩ := itemEvents_tag _ _ _ e he
      obtain ⟨j, b', _, hfi, _⟩ := runLoop_mem_bid outs ts rest (i + 1) _ f hf
      intro a a' ha ha'
      rw [hei] at ha
      rw [hfi] at ha'
      injection ha with h1
      injection ha' with h2
      omega
    · have hc' : outcomeContinues (outs i) = false := by simpa using hc
      rw [runLoop_cons_stop _ _ _ _ _ _ hc']
      exact hblock L

lemma runLoop_keys (outs : Nat → ItemOutcome) (ts : Nat → String) :
    ∀ (news : List Bookmark) (i : Nat) (L : Ledger) (k : String),
    containsKey (runLoop outs ts news i L).1 k = true →
    containsKey L k = true ∨
      ∃ j b, news[j]? = some b ∧ outs (i + j) = ItemOutcome.success ∧ bidOf b = k := by
  intro news
  induction news with
  | nil => intro i L k h; rw [runLoop_nil] at h; exact Or.inl h
  | cons b rest ih =>
    intro i L k h
    by_cases hc : outcomeContinues (outs i) = true
    · rw [runLoop_cons_cont _ _ _ _ _ _ hc] at h
      rcases ih (i + 1) _ k h with h1 | ⟨j, b', hj, hs, hb⟩
      · unfold outcomeLedger at h1
        by_cases hsucc : outs i = ItemOutcome.success
        · rw [if_pos hsucc, containsKey_ledgerInsert] at h1
          simp only [Bool.or_eq_true, beq_iff_eq] at h1
          rcases h1 with h2 | h3
          · exact Or.inl h2
          · right
            exact ⟨0, b, by simp, by simpa using hsucc, h3⟩
        · rw [if_neg hsucc] at h1
          exact Or.inl h1
      · right
        refine ⟨j + 1, b', by simpa using hj, ?_, hb⟩
        have he2 : i + (j + 1) = (i + 1) + j := by omega
        rw [he2]
        exact hs
    · have hc' : outcomeContinues (outs i) = false := by simpa using hc
      rw [runLoop_cons_stop _ _ _ _ _ _ hc'] at h
      have hesc := outcomeContinues_false hc'
      unfold outcomeLedger at h
      rw [if_neg (by rw [hesc]; exact fun hh => ItemOutcome.noConfusion hh)] at h
      exact Or.inl h

lemma runLoop_block_inf (outs : Nat → ItemOutcome) (ts : Nat → String) :
    ∀ (news : List Bookmark) (i : Nat) (L : Ledger) (j : Nat) (b : Bookmark),
    news[j]? = some b →
    (∀ k, k < j → outcomeContinues (outs (i + k)) = true) →
    itemEvents (i + j) (bidOf b) (outs (i + j)) <:+: (runLoop outs ts news i L).2.1 := by
  intro news
  induction news with
  | nil => intro i L j b hj _; simp at hj
  | cons b0 rest ih =>
    intro i L j b hj hk
    cases j with
    | zero =>
      have hb : b0 = b := by simpa using hj
      subst hb
      by_cases hc : outcomeContinues (outs i) = true
      · rw [runLoop_cons_cont _ _ _ _ _ _ hc]
        exact ⟨[], (runLoop outs ts rest (i + 1)
          (outcomeLedger (outs i) L (bidOf b0) (ts i))).2.1, by simp⟩
      · have hc' : outcomeContinues (outs i) = false := by simpa using hc
        rw [runLoop_cons_stop _ _ _ _ _ _ hc']
        exact ⟨[], [], by simp⟩
    | succ j' =>
      have hcont0 : outcomeContinues (outs i) = true := by
        have := hk 0 (Nat.succ_pos j')
        simpa using this
      rw [runLoop_cons_cont _ _ _ _ _ _ hcont0]
      have hj' : rest[j']? = some b := by simpa using hj
      have hk' : ∀ k, k < j' → outcomeContinues (outs ((i + 1) + k)) = true := by
        intro k hkk
        have h1 := hk (k + 1) (by omega)
        have he2 : i + (k + 1) = (i + 1) + k := by omega
        rw [he2] at h1
        exact h1
      have hinf := ih (i + 1) (outcomeLedger (outs i) L (bidOf b0) (ts i)) j' b hj' hk'
      have hidx : (i + 1) + j' = i + (j' + 1) := by omega
      rw [hidx] at hinf
      obtain ⟨s, t, hst⟩ := hinf
      refine ⟨itemEvents i (bidOf b0) (outs i) ++ s, t, ?_⟩
      rw [← hst]
      simp [List.append_assoc]

lemma runLoop_ok (outs : Nat → ItemOutcome) (ts : Nat → String)
    (hne : ∀ j, outs j ≠ ItemOutcome.escape) :
    ∀ (news : List Bookmark) (i : Nat) (L : Ledger),
    (runLoop outs ts news i L).2.2 = true := by
  intro news
  induction news with
  | nil => intro i L; rw [runLoop_nil]
  | cons b rest ih =>
    intro i L
    rw [runLoop_cons_cont _ _ _ _ _ _ (outcomeContinues_of_ne (hne i))]
    exact ih (i + 1) _

lemma runLoop_length (outs : Nat → ItemOutcome) (ts : Nat → String) :
    ∀ (news : List Bookmark) (i : Nat) (L : Ledger),
    (∀ b ∈ news, containsKey L (bidOf b) = false) →
    ((news.map bidOf).Nodup) →
    (∀ j, outs j ≠ ItemOutcome.escape) →
    (runLoop outs ts news i L).1.length = L.length + countSuccesses outs i news.length := by
  intro news
  induction news with
  | nil => intro i L _ _ _; rw [runLoop_nil]; simp [countSuccesses]
  | cons b rest ih =>
    intro i L hfresh hnd hne
    rw [runLoop_cons_cont _ _ _ _ _ _ (outcomeContinues_of_ne (hne i))]
    rw [List.map_cons, List.nodup_cons] at hnd
    obtain ⟨hbnotin, hnd'⟩ := hnd
    by_cases hsucc : outs i = ItemOutcome.success
    · have hL' : outcomeLedger (outs i) L (bidOf b) (ts i) =
          ledgerInsert L (bidOf b) (ts i) := by
        unfold outcomeLedger
        rw [if_pos hsucc]
      have hfresh' : ∀ b' ∈ rest,
          containsKey (ledgerInsert L (bidOf b) (ts i)) (bidOf b') = false := by
        intro b' hb'
        rw [containsKey_ledgerInsert]
        have h1 : containsKey L (bidOf b') = false :=
          hfresh b' (List.mem_cons_of_mem _ hb')
        have h2 : (bidOf b == bidOf b') = false := by
          rw [beq_eq_false_iff_ne]
          intro hEq
          exact hbnotin (hEq ▸ List.mem_map_of_mem bidOf hb')
        rw [h1, h2]
        rfl
      rw [hL']
      rw [ih (i + 1) _ hfresh' hnd' hne,
        ledgerInsert_length_fresh (hfresh b (List.mem_cons_self _ _))]
      simp only [List.length_cons, countSuccesses, hsucc, if_pos]
      omega
    · have hL' : outcomeLedger (outs i) L (bidOf b) (ts i) = L := by
        unfold outcomeLedger
        rw [if_neg hsucc]
      rw [hL']
      rw [ih (i + 1) L (fun b' hb' => hfresh b' (List.mem_cons_of_mem _ hb')) hnd' hne]
      simp only [List.length_cons, countSuccesses, hsucc, if_neg, if_false]
      omega

/-! mainRun unfolding lemmas. -/

lemma newBookmarks_nil (L0 : Ledger) : newBookmarks [] L0 = [] := rfl

lemma mainRun_no_loop (bookmarks : List Bookmark) (L0 : Ledger)
    (outs : Nat → ItemOutcome) (ts : Nat → String)
    (hne : newBookmarks bookmarks L0 = []) :
    mainRun bookmarks L0 outs ts = (L0, []) := by
  unfold mainRun
  by_cases hb : bookmarks.isEmpty = true
  · rw [if_pos hb]
  · rw [if_neg hb]
    simp only [hne, List.isEmpty_nil, if_true]

lemma mainRun_loop (bookmarks : List Bookmark) (L0 : Ledger)
    (outs : Nat → ItemOutcome) (ts : Nat → String)
    (hne : ¬ newBookmarks bookmarks L0 = []) :
    mainRun bookmarks L0 outs ts =
      ((runLoop outs ts (newBookmarks bookmarks L0) 0 L0).1,
        Event.createTmpdir ::
          ((runLoop outs ts (newBookmarks bookmarks L0) 0 L0).2.1 ++
            Event.removeTmpdir ::
              (if (runLoop outs ts (newBookmarks bookmarks L0) 0 L0).2.2 then
                [Event.summary (runLoop outs ts (newBookmarks bookmarks L0) 0 L0).1.length]
              else []))) := by
  unfold mainRun
  have hbe : bookmarks.isEmpty = false := by
    cases bookmarks with
    | nil => exact absurd (newBookmarks_nil L0) hne
    | cons _ _ => rfl
  rw [if_neg (by simp [hbe])]
  rw [if_neg (by simp [List.isEmpty_iff, hne])]

lemma inf_cons_append {α : Type} {l A B : List α} {c : α} (h : l <:+: A) :
    l <:+: (c :: (A ++ B)) := by
  obtain ⟨s, t, hst⟩ := h
  refine ⟨c :: s, t ++ B, ?_⟩
  rw [← hst]
  simp [List.append_assoc]

lemma processing_mem_itemEvents (i : Nat) (bid : String) (o : ItemOutcome) :
    Event.processing i bid ∈ itemEvents i bid o := by
  cases o <;> simp [itemEvents]

lemma logException_mem_raises {o : ItemOutcome} (h : raisesCaught o = true)
    (i : Nat) (bid : String) : Event.logException i bid ∈ itemEvents i bid o := by
  cases o <;> simp_all [raisesCaught, itemEvents]

lemma raisesCaught_ne_success {o : ItemOutcome} (h : raisesCaught o = true) :
    o ≠ ItemOutcome.success := by
  cases o <;> simp_all [raisesCaught]

lemma pair_inf_success (i : Nat) (bid : String) :
    [Event.uploadCall i bid, Event.saveLedger i bid] <:+:
      itemEvents i bid ItemOutcome.success :=
  ⟨[Event.processing i bid, Event.fetchCall i bid, Event.extractCall i bid,
    Event.renderCall i bid], [], by simp [itemEvents]⟩

lemma newBookmarks_nodup {bookmarks : List Bookmark} {L0 : Ledger}
    (h : (bookmarks.map bidOf).Nodup) :
    ((newBookmarks bookmarks L0).map bidOf).Nodup :=
  List.Nodup.sublist (List.Sublist.map bidOf (List.filter_sublist bookmarks)) h

lemma newBookmarks_fresh {bookmarks : List Bookmark} {L0 : Ledger} {b : Bookmark}
    (h : b ∈ newBookmarks bookmarks L0) : containsKey L0 (bidOf b) = false := by
  have h2 := (List.mem_filter.mp h).2
  simpa using h2

lemma mainRun_pairwise (bookmarks : List Bookmark) (L0 : Ledger)
    (outs : Nat → ItemOutcome) (ts : Nat → String) :
    (mainRun bookmarks L0 outs ts).2.Pairwise idxLE := by
  by_cases hne : newBookmarks bookmarks L0 = []
  · rw [mainRun_no_loop _ _ _ _ hne]
    exact List.Pairwise.nil
  · rw [mainRun_loop _ _ _ _ hne]
    refine List.pairwise_cons.mpr ⟨?_, ?_⟩
    · intro e _ a a' ha _
      exact absurd ha (by simp [evIdx])
    · refine List.pairwise_append.mpr ⟨runLoop_pairwise outs ts _ 0 L0, ?_, ?_⟩
      · refine List.pairwise_cons.mpr ⟨?_, ?_⟩
        · intro e _ a a' ha _
          exact absurd ha (by simp [evIdx])
        · split
          · exact List.pairwise_singleton _ _
          · exact List.Pairwise.nil
      · intro e _ f hf a a' _ ha'
        rcases List.mem_cons.mp hf with rfl | hf2
        · exact absurd ha' (by simp [evIdx])
        · split at hf2
          · have hf3 : f = Event.summary
                ((runLoop outs ts (newBookmarks bookmarks L0) 0 L0).1.length) := by
              simpa using hf2
            subst hf3
            exact absurd ha' (by simp [evIdx])
          · simp at hf2

/-- C1: any run event carrying a bookmark id (the item being processed, its
fetch, extraction, rendering, upload, ledger write or log line) concerns an
id that was absent from the loaded ledger: items whose stringified id is a
key of the loaded mapping are filtered out before the loop (lines 243-244)
and nothing is invoked for them; an item is processed only if its id is
absent. -/
theorem ledger_filter_excludes (bookmarks : List Bookmark) (L0 : Ledger)
    (outs : Nat → ItemOutcome) (ts : Nat → String) (e : Event)
    (he : e ∈ (mainRun bookmarks L0 outs ts).2) (bid : String)
    (hb : evBid e = some bid) : containsKey L0 bid = false := by
  by_cases hne : newBookmarks bookmarks L0 = []
  · rw [mainRun_no_loop _ _ _ _ hne] at he
    simp at he
  · rw [mainRun_loop _ _ _ _ hne] at he
    rcases List.mem_cons.mp he with rfl | he2
    · simp [evBid] at hb
    rcases List.mem_append.mp he2 with he3 | he4
    · obtain ⟨j, b, hj, _, hbid⟩ := runLoop_mem_bid outs ts _ 0 L0 e he3
      have hmem : b ∈ newBookmarks bookmarks L0 := List.getElem?_mem hj
      rw [hb] at hbid
      injection hbid with hbid'
      rw [hbid']
      exact newBookmarks_fresh hmem
    · rcases List.mem_cons.mp he4 with rfl | he5
      · simp [evBid] at hb
      · split at he5
        · have he6 : e = Event.summary
              ((runLoop outs ts (newBookmarks bookmarks L0) 0 L0).1.length) := by
            simpa using he5
          subst he6
          simp [evBid] at hb
        · simp at he5

/-- C1 witness: with the id 1 recorded in the loaded ledger and items 1 and
2 fetched, the run's trace contains an event for item 2, whose id is indeed
not a ledger key. -/
theorem ledger_filter_excludes_w :
    containsKey [(("1"), ("t0"))] ("2") = false :=
  ledger_filter_excludes
    [⟨("bookmark"), 1, ("A"), ("u1")⟩, ⟨("bookmark"), 2, ("B"), ("u2")⟩]
    [(("1"), ("t0"))] (fun _ => ItemOutcome.success) (fun _ => ("t"))
    (Event.processing 0 ("2")) (by decide) ("2") rfl

/-- C4: (a) every key of the final ledger is either a key of the loaded
ledger or the id of an item whose delivery succeeded, so no entry is ever
added for an item whose delivery fails; (b) for every successfully
delivered item, the ledger write event immediately follows its upload event
(lines 266-268); (c) a ledger write for item i precedes every event of any
later item: persistence happens before the next item is processed. -/
theorem ledger_persisted_per_item (bookmarks : List Bookmark) (L0 : Ledger)
    (outs : Nat → ItemOutcome) (ts : Nat → String) :
    (∀ k, containsKey (mainRun bookmarks L0 outs ts).1 k = true →
        containsKey L0 k = true ∨
          ∃ j b, (newBookmarks bookmarks L0)[j]? = some b ∧
            outs j = ItemOutcome.success ∧ bidOf b = k) ∧
    (∀ j b, (newBookmarks bookmarks L0)[j]? = some b →
        outs j = ItemOutcome.success →
        (∀ k, k < j → outs k ≠ ItemOutcome.escape) →
        [Event.uploadCall j (bidOf b), Event.saveLedger j (bidOf b)] <:+:
          (mainRun bookmarks L0 outs ts).2) ∧
    (∀ (p q i j : Nat) (bid : String) (e : Event),
        (mainRun bookmarks L0 outs ts).2[p]? = some (Event.saveLedger i bid) →
        (mainRun bookmarks L0 outs ts).2[q]? = some e →
        evIdx e = some j → i < j → p < q) := by
  refine ⟨?_, ?_, ?_⟩
  · intro k h
    by_cases hne : newBookmarks bookmarks L0 = []
    · rw [mainRun_no_loop _ _ _ _ hne] at h
      exact Or.inl h
    · rw [mainRun_loop _ _ _ _ hne] at h
      rcases runLoop_keys outs ts _ 0 L0 k h with h1 | ⟨j, b, hj, hs, hbid⟩
      · exact Or.inl h1
      · exact Or.inr ⟨j, b, hj, by simpa using hs, hbid⟩
  · intro j b hj hsucc hpre
    have hne : ¬ newBookmarks bookmarks L0 = [] := by
      intro hh
      rw [hh] at hj
      simp at hj
    rw [mainRun_loop _ _ _ _ hne]
    have hcond : ∀ k, k < j → outcomeContinues (outs (0 + k)) = true := by
      intro k hk
      have := outcomeContinues_of_ne (hpre k hk)
      simpa using this
    have hinf := runLoop_block_inf outs ts (newBookmarks bookmarks L0) 0 L0 j b hj hcond
    have h0j : 0 + j = j := by omega
    rw [h0j, hsucc] at hinf
    exact inf_cons_append ((pair_inf_success j (bidOf b)).trans hinf)
  · intro p q i j bid e hp hq hj hij
    have hpw := mainRun_pairwise bookmarks L0 outs ts
    rw [List.pairwise_iff_getElem] at hpw
    have hplen : p < (mainRun bookmarks L0 outs ts).2.length := by
      by_contra hcon
      rw [List.getElem?_eq_none (by omega)] at hp
      exact Option.noConfusion hp
    have hqlen : q < (mainRun bookmarks L0 outs ts).2.length := by
      by_contra hcon
      rw [List.getElem?_eq_none (by omega)] at hq
      exact Option.noConfusion hq
    have hpe : (mainRun bookmarks L0 outs ts).2[p] = Event.saveLedger i bid := by
      rw [List.getElem?_eq_getElem hplen] at hp
      injection hp
    have hqe : (mainRun bookmarks L0 outs ts).2[q] = e := by
      rw [List.getElem?_eq_getElem hqlen] at hq
      injection hq
    by_contra hcon
    push_neg at hcon
    rcases Nat.lt_or_ge q p with hqp | hpq
    · have hrel := hpw q p hqlen hplen hqp
      rw [hpe, hqe] at hrel
      have := hrel j i hj (by simp [evIdx])
      omega
    · have hpq2 : p = q := by omega
      rw [hpq2, hq] at hp
      injection hp with hp'
      rw [hp'] at hj
      simp [evIdx] at hj
      omega

/-- C4 witness: one fresh item delivered successfully: the upload event is
immediately followed by the ledger write in the run's trace. -/
theorem ledger_persisted_per_item_w :
    [Event.uploadCall 0 ("2"), Event.saveLedger 0 ("2")] <:+:
      (mainRun [⟨("bookmark"), 2, ("B"), ("u2")⟩] [] (fun _ => ItemOutcome.success)
        (fun _ => ("t"))).2 :=
  (ledger_persisted_per_item [⟨("bookmark"), 2, ("B"), ("u2")⟩] []
      (fun _ => ItemOutcome.success) (fun _ => ("t"))).2.1 0
    ⟨("bookmark"), 2, ("B"), ("u2")⟩ (by decide) rfl
    (fun k hk => absurd hk (Nat.not_lt_zero k))

/-- C5: when no abrupt non Exception exit occurs and the fetched ids are
pairwise distinct, every item of the filtered batch is attempted (its
processing line is logged), and every item whose fetch, extraction,
rendering or upload raises has the exception logged at the per item
boundary and stays unmarked in the final ledger; no per item exception
aborts the run. -/
theorem per_item_isolation (bookmarks : List Bookmark) (L0 : Ledger)
    (outs : Nat → ItemOutcome) (ts : Nat → String)
    (hNoEsc : ∀ i, outs i ≠ ItemOutcome.escape)
    (hNodup : (bookmarks.map bidOf).Nodup) :
    (∀ j b, (newBookmarks bookmarks L0)[j]? = some b →
        Event.processing j (bidOf b) ∈ (mainRun bookmarks L0 outs ts).2) ∧
    (∀ j b, (newBookmarks bookmarks L0)[j]? = some b →
        raisesCaught (outs j) = true →
        Event.logException j (bidOf b) ∈ (mainRun bookmarks L0 outs ts).2 ∧
        containsKey (mainRun bookmarks L0 outs ts).1 (bidOf b) = false) := by
  have hblock : ∀ j b, (newBookmarks bookmarks L0)[j]? = some b →
      itemEvents j (bidOf b) (outs j) <:+: (mainRun bookmarks L0 outs ts).2 := by
    intro j b hj
    have hne : ¬ newBookmarks bookmarks L0 = [] := by
      intro hh
      rw [hh] at hj
      simp at hj
    rw [mainRun_loop _ _ _ _ hne]
    have hcond : ∀ k, k < j → outcomeContinues (outs (0 + k)) = true := by
      intro k hk
      exact outcomeContinues_of_ne (hNoEsc (0 + k))
    have hinf := runLoop_block_inf outs ts (newBookmarks bookmarks L0) 0 L0 j b hj hcond
    have h0j : 0 + j = j := by omega
    rw [h0j] at hinf
    exact inf_cons_append hinf
  refine ⟨?_, ?_⟩
  · intro j b hj
    exact (hblock j b hj).sublist.subset (processing_mem_itemEvents j (bidOf b) (outs j))
  · intro j b hj hraise
    refine ⟨(hblock j b hj).sublist.subset (logException_mem_raises hraise j (bidOf b)), ?_⟩
    have hne : ¬ newBookmarks bookmarks L0 = [] := by
      intro hh
      rw [hh] at hj
      simp at hj
    cases hCK : containsKey (mainRun bookmarks L0 outs ts).1 (bidOf b) with
    | false => rfl
    | true =>
      exfalso
      rw [mainRun_loop _ _ _ _ hne] at hCK
      rcases runLoop_keys outs ts _ 0 L0 (bidOf b) hCK with h1 | ⟨j', b', hj', hs', hbid'⟩
      · have h2 := newBookmarks_fresh (List.getElem?_mem hj)
        rw [h2] at h1
        exact Bool.noConfusion h1
      · have hnd : ((newBookmarks bookmarks L0).map bidOf).Nodup :=
          newBookmarks_nodup hNodup
        have hmj : ((newBookmarks bookmarks L0).map bidOf)[j]? = some (bidOf b) := by
          rw [List.getElem?_map, hj]
          rfl
        have hmj' : ((newBookmarks bookmarks L0).map bidOf)[j']? = some (bidOf b) := by
          rw [List.getElem?_map, hj', Option.map_some']
          rw [hbid']
        have hjlen : j' < ((newBookmarks bookmarks L0).map bidOf).length := by
          by_contra hcon
          rw [List.getElem?_eq_none (by omega)] at hmj'
          exact Option.noConfusion hmj'
        have hjj : j' = j := List.getElem?_inj hjlen hnd (hmj'.trans hmj.symm)
        subst hjj
        have hsj : outs (0 + j') = ItemOutcome.success := hs'
        rw [Nat.zero_add] at hsj
        exact raisesCaught_ne_success hraise hsj

/-- C5 witness: an item whose rasterization raises has the exception logged
and is left out of the ledger. -/
theorem per_item_isolation_w :
    Event.logException 0 ("2") ∈
      (mainRun [⟨("bookmark"), 2, ("B"), ("u2")⟩] [] (fun _ => ItemOutcome.renderRaise)
        (fun _ => ("t"))).2 ∧
    containsKey (mainRun [⟨("bookmark"), 2, ("B"), ("u2")⟩] []
        (fun _ => ItemOutcome.renderRaise) (fun _ => ("t"))).1 ("2") = false :=
  (per_item_isolation [⟨("bookmark"), 2, ("B"), ("u2")⟩] []
      (fun _ => ItemOutcome.renderRaise) (fun _ => ("t"))
      (fun _ h => ItemOutcome.noConfusion h) (by decide)).2 0
    ⟨("bookmark"), 2, ("B"), ("u2")⟩ (by decide) rfl

/-- C8: whenever the run creates the temporary directory (the filtered
batch is nonempty), the trace ends with its removal: after the removal
event only unindexed events (the summary, when the loop completed) occur,
for every choice of per item outcomes, including an abrupt exit of the
loop. -/
theorem tmpdir_removed (bookmarks : List Bookmark) (L0 : Ledger)
    (outs : Nat → ItemOutcome) (ts : Nat → String)
    (hne : newBookmarks bookmarks L0 ≠ []) :
    ∃ pre post, (mainRun bookmarks L0 outs ts).2 =
        pre ++ Event.removeTmpdir :: post ∧ ∀ e ∈ post, evIdx e = none := by
  rw [mainRun_loop _ _ _ _ hne]
  refine ⟨Event.createTmpdir :: (runLoop outs ts (newBookmarks bookmarks L0) 0 L0).2.1,
    (if (runLoop outs ts (newBookmarks bookmarks L0) 0 L0).2.2 then
      [Event.summary (runLoop outs ts (newBookmarks bookmarks L0) 0 L0).1.length]
    else []), by simp, ?_⟩
  intro e he
  split at he
  · have he2 : e = Event.summary
        ((runLoop outs ts (newBookmarks bookmarks L0) 0 L0).1.length) := by
      simpa using he
    subst he2
    rfl
  · simp at he

/-- C8 witness: even when the very first item exits the loop abruptly, the
removal of the temporary directory is still traced. -/
theorem tmpdir_removed_w :
    ∃ pre post, (mainRun [⟨("bookmark"), 2, ("B"), ("u2")⟩] []
        (fun _ => ItemOutcome.escape) (fun _ => ("t"))).2 =
      pre ++ Event.removeTmpdir :: post ∧ ∀ e ∈ post, evIdx e = none :=
  tmpdir_removed [⟨("bookmark"), 2, ("B"), ("u2")⟩] [] (fun _ => ItemOutcome.escape)
    (fun _ => ("t")) (by decide)

/-- C10: the end of run summary logs the size of the whole ledger mapping:
the trace ends with a summary event whose count is the final ledger's
size, which equals the loaded ledger's size (entries of previous runs
included) plus the number of this run's successful deliveries — not the
number of items processed in this run (line 277 logs len of the processed
dict). -/
theorem summary_counts_whole_ledger (bookmarks : List Bookmark) (L0 : Ledger)
    (outs : Nat → ItemOutcome) (ts : Nat → String)
    (hne : newBookmarks bookmarks L0 ≠ [])
    (hNoEsc : ∀ i, outs i ≠ ItemOutcome.escape)
    (hNodup : (bookmarks.map bidOf).Nodup)
    (_hL0 : (L0.map Prod.fst).Nodup) :
    (mainRun bookmarks L0 outs ts).2.getLast? =
      some (Event.summary ((mainRun bookmarks L0 outs ts).1.length)) ∧
    (mainRun bookmarks L0 outs ts).1.length =
      L0.length + countSuccesses outs 0 (newBookmarks bookmarks L0).length := by
  have hok := runLoop_ok outs ts hNoEsc (newBookmarks bookmarks L0) 0 L0
  rw [mainRun_loop _ _ _ _ hne]
  constructor
  · show (Event.createTmpdir ::
      ((runLoop outs ts (newBookmarks bookmarks L0) 0 L0).2.1 ++
        Event.removeTmpdir ::
          (if (runLoop outs ts (newBookmarks bookmarks L0) 0 L0).2.2 then
            [Event.summary (runLoop outs ts (newBookmarks bookmarks L0) 0 L0).1.length]
          else []))).getLast? = _
    rw [if_pos hok]
    have hsplit : Event.createTmpdir ::
        ((runLoop outs ts (newBookmarks bookmarks L0) 0 L0).2.1 ++
          Event.removeTmpdir ::
            [Event.summary (runLoop outs ts (newBookmarks bookmarks L0) 0 L0).1.length]) =
        (Event.createTmpdir ::
          ((runLoop outs ts (newBookmarks bookmarks L0) 0 L0).2.1 ++
            [Event.removeTmpdir])) ++
          [Event.summary (runLoop outs ts (newBookmarks bookmarks L0) 0 L0).1.length] := by
      simp
    rw [hsplit, List.getLast?_concat]
  · show (runLoop outs ts (newBookmarks bookmarks L0) 0 L0).1.length = _
    apply runLoop_length
    · intro b hb
      exact newBookmarks_fresh hb
    · exact newBookmarks_nodup hNodup
    · exact hNoEsc

/-- C10 witness: the loaded ledger already holds one entry, the single new
item succeeds, and the summary logs 2, not the 1 item processed in this
run. -/
theorem summary_counts_whole_ledger_w :
    (mainRun [⟨("bookmark"), 1, ("A"), ("u1")⟩, ⟨("bookmark"), 2, ("B"), ("u2")⟩]
        [(("1"), ("t0"))] (fun _ => ItemOutcome.success) (fun _ => ("t"))).2.getLast? =
      some (Event.summary 2) := by
  have h := summary_counts_whole_ledger
    [⟨("bookmark"), 1, ("A"), ("u1")⟩, ⟨("bookmark"), 2, ("B"), ("u2")⟩]
    [(("1"), ("t0"))] (fun _ => ItemOutcome.success) (fun _ => ("t"))
    (by decide) (fun _ hh => ItemOutcome.noConfusion hh) (by decide) (by decide)
  rw [h.1]
  rfl

end InstapaperSync
